import Mathlib

/-!
Shallow embedding of `automation/daily_digest.py` (the daily digest pipeline of the
DataAnalysis repository), with theorems settling the frozen claims about its spec.

Modelling conventions:
* Python `str` is modelled by Lean `String` (a structure around `List Char`);
  only ASCII case-folding and the ASCII whitespace class are modelled, which covers
  every string this program manipulates.
* Python exceptions are modelled by `Except`: a function that can raise returns
  `Except ε α`, and an uncaught exception aborting `main` is an `Except.error`
  result (the script has no `try`/`except` outside `score_entry`).
* `hashlib.sha1(x).hexdigest()` is modelled by the string `x` itself: the digest of
  a string is a function of exactly that string, and every claim only needs that
  equal inputs give equal digests (no injectivity of the hash is assumed anywhere).
* `datetime.datetime` values are modelled by `PyDateTime` (year/month/day/h/m/s);
  `datetime.fromisoformat` is modelled on the naive date-time strings this program
  ever produces or consumes (date, optional time, optional fractional seconds;
  no UTC-offset suffix, which line 52 of the source strips anyway).
-/

namespace DailyDigest

/-- The whitespace class used by `str.strip` and the regex class matched in
`clean` (line 36), restricted to ASCII: space, tab, newline, carriage return,
vertical tab, form feed. -/
def pyIsSpace (c : Char) : Bool :=
  c == ' ' || c == '\t' || c == '\n' || c == '\r' || c == '\x0b' || c == '\x0c'

/-- Python `str.strip()`: drop leading and trailing whitespace. -/
def pyStrip (l : List Char) : List Char :=
  ((l.dropWhile pyIsSpace).reverse.dropWhile pyIsSpace).reverse

/-- Character-by-character engine of `re.sub(r"\s+", " ", l)`: the Boolean
records whether the previous character was whitespace, so the first character
of each whitespace run becomes a single space and the rest of the run is
skipped. -/
def collapseAux : Bool → List Char → List Char
  | _, [] => []
  | afterSpace, c :: cs =>
    if pyIsSpace c then
      if afterSpace then collapseAux true cs else ' ' :: collapseAux true cs
    else c :: collapseAux false cs

/-- The effect of `re.sub(r"\s+", " ", l)`: replace every maximal run of
whitespace characters by a single space. -/
def collapseWs (l : List Char) : List Char :=
  collapseAux false l

/-- Source line 35-36: `clean(text) = re.sub(r"\s+", " ", (text or "").strip())`.
The `or ""` guard against `None` disappears in a typed embedding. -/
def clean (text : String) : String :=
  ⟨collapseWs (pyStrip text.data)⟩

/-- Python `s.replace("Z", "")` as applied on source line 52. -/
def removeZ (s : String) : String :=
  ⟨s.data.filter (fun c => c != 'Z')⟩

/-- Does `hay` start with `needle`? (helper for the substring test). -/
def listStartsWith : List Char → List Char → Bool
  | _, [] => true
  | [], _ :: _ => false
  | h :: hs, n :: ns => h == n && listStartsWith hs ns

/-- Python's substring operator `needle in hay` on strings: true iff `needle`
occurs contiguously in `hay` (the empty needle occurs in every string). -/
def listContains : List Char → List Char → Bool
  | [], needle => listStartsWith [] needle
  | h :: hs, needle => listStartsWith (h :: hs) needle || listContains hs needle

/-- Python `needle in hay` on `str` values. -/
def strContains (hay needle : String) : Bool :=
  listContains hay.data needle.data

/-- ASCII case folding of one character, as `str.lower()` acts on the ASCII
range (the only range this program's strings use). -/
def pyLowerChar (c : Char) : Char :=
  if 'A' ≤ c ∧ c ≤ 'Z' then Char.ofNat (c.toNat + 32) else c

/-- Python `s.lower()` restricted to ASCII. -/
def pyLower (s : String) : String :=
  ⟨s.data.map pyLowerChar⟩

/-- A naive `datetime.datetime` value (no timezone), as produced by
`datetime.fromisoformat` on the strings this program handles. -/
structure PyDateTime where
  year : Nat
  month : Nat
  day : Nat
  hour : Nat
  minute : Nat
  second : Nat
deriving DecidableEq, Repr

/-- Gregorian leap-year rule, as used by `datetime`. -/
def isLeap (y : Nat) : Bool :=
  (y % 4 == 0 && y % 100 != 0) || y % 400 == 0

/-- Number of days in a month of a given year, as validated by `datetime`. -/
def daysInMonth (y : Nat) (m : Nat) : Nat :=
  if m == 2 then (if isLeap y then 29 else 28)
  else if m == 4 || m == 6 || m == 9 || m == 11 then 30
  else 31

/-- Days from 1970-01-01 to year/month/day in the proleptic Gregorian
calendar (the standard civil-from-days correspondence used by `datetime`
subtraction). -/
def daysFromCivil (y : Int) (m : Nat) (d : Nat) : Int :=
  let yy : Int := if m ≤ 2 then y - 1 else y
  let era : Int := Int.fdiv yy 400
  let yoe : Int := yy - era * 400
  let mp : Int := if m > 2 then (m : Int) - 3 else (m : Int) + 9
  let doy : Int := Int.fdiv (153 * mp + 2) 5 + (d : Int) - 1
  let doe : Int := yoe * 365 + Int.fdiv yoe 4 - Int.fdiv yoe 100 + doy
  era * 146097 + doe - 719468

/-- Seconds from the epoch to a `PyDateTime`. -/
def epochSeconds (t : PyDateTime) : Int :=
  daysFromCivil (Int.ofNat t.year) t.month t.day * 86400
    + (t.hour * 3600 + t.minute * 60 + t.second : Nat)

/-- Source lines 32-33: `days_ago(d) = (now_utc() - d).days`. `timedelta.days`
floors towards minus infinity, hence `Int.fdiv`. The run's current time is an
explicit parameter of the model. -/
def days_ago (now d : PyDateTime) : Int :=
  Int.fdiv (epochSeconds now - epochSeconds d) 86400

/-- Two-digit decimal number. -/
def digit2 (a b : Char) : Option Nat :=
  if a.isDigit && b.isDigit then some ((a.toNat - 48) * 10 + (b.toNat - 48))
  else none

/-- Four-digit decimal number. -/
def digit4 (a b c d : Char) : Option Nat :=
  if a.isDigit && b.isDigit && c.isDigit && d.isDigit then
    some ((a.toNat - 48) * 1000 + (b.toNat - 48) * 100 + (c.toNat - 48) * 10 + (d.toNat - 48))
  else none

/-- Optional `:SS[.ffffff]` tail of an ISO time (seconds default to 0). -/
def parseSecPart : List Char → Option Nat
  | [] => some 0
  | ':' :: s1 :: s2 :: rest =>
    match digit2 s1 s2, rest with
    | some s, [] => some s
    | some s, '.' :: frac =>
      if !frac.isEmpty && frac.all Char.isDigit then some s else none
    | _, _ => none
  | _ => none

/-- Optional time-of-day part of an ISO date-time: empty, or a one-character
separator followed by `HH:MM[:SS[.ffffff]]` (fractional seconds are validated
but, being irrelevant to whole-day arithmetic, not retained). -/
def parseTimePart : List Char → Option (Nat × Nat × Nat)
  | [] => some (0, 0, 0)
  | _sep :: h1 :: h2 :: ':' :: m1 :: m2 :: rest =>
    match digit2 h1 h2, digit2 m1 m2, parseSecPart rest with
    | some h, some m, some s => some (h, m, s)
    | _, _, _ => none
  | _ => none

/-- Model of `datetime.datetime.fromisoformat` on the naive date-time strings
this program handles: `YYYY-MM-DD[*HH:MM[:SS[.ffffff]]]`, with the field ranges
the `datetime` constructor enforces. Returns `none` exactly where Python raises
`ValueError` (the caller at source line 54 turns that into a no-op). -/
def pyFromIso (s : String) : Option PyDateTime :=
  match s.data with
  | y1 :: y2 :: y3 :: y4 :: '-' :: m1 :: m2 :: '-' :: d1 :: d2 :: rest =>
    match digit4 y1 y2 y3 y4, digit2 m1 m2, digit2 d1 d2, parseTimePart rest with
    | some y, some mo, some dy, some (h, mi, se) =>
      if 1 ≤ y ∧ 1 ≤ mo ∧ mo ≤ 12 ∧ 1 ≤ dy ∧ dy ≤ daysInMonth y mo
          ∧ h ≤ 23 ∧ mi ≤ 59 ∧ se ≤ 59 then
        some ⟨y, mo, dy, h, mi, se⟩
      else none
    | _, _, _, _ => none
  | _ => none

/-- One external record as built by the adapters (source lines 74, 102, 121,
134). Python dicts lack the `score` key until the loop at line 167 assigns it;
the field defaults to `0` here and is only meaningful on scored entries. -/
structure Entry where
  title : String
  abstract : String
  url : String
  source : String
  date : String
  score : Int := 0
deriving DecidableEq, Repr

/-- The per-topic accumulation of source lines 44-46: `+4` when the lowercased
term occurs in the lowercased title, `+2` when it occurs in the lowercased
abstract, folded over the topic list in order. -/
def topicScore (title abstr : String) : List String → Int → Int
  | [], s => s
  | t :: ts, s =>
    let s1 := if strContains title (pyLower t) then s + 4 else s
    let s2 := if strContains abstr (pyLower t) then s1 + 2 else s1
    topicScore title abstr ts s2

/-- Source lines 38-59, `score_entry`: topic hits, domain-allowlist credit,
recency credit (guarded by a non-empty, parseable date), preprint-server
credit. The `try`/`except` around the date parse becomes the `Option` match. -/
def score_entry (entry : Entry) (topics allowlist : List String)
    (recency_days : Int) (now : PyDateTime) : Int :=
  let title := (pyLower entry.title)
  let abstr := (pyLower entry.abstract)
  let url := (pyLower entry.url)
  let s0 := topicScore title abstr topics 0
  let s1 :=
    if (allowlist.map pyLower).any (fun a => strContains url a) then s0 + 3 else s0
  let s2 :=
    if entry.date ≠ "" then
      match pyFromIso (removeZ entry.date) with
      | some d => if days_ago now d ≤ recency_days then s1 + 3 else s1
      | none => s1
    else s1
  if strContains url "biorxiv" || strContains url "medrxiv" then s2 + 1 else s2

/-- Spec-side component: number of topic terms whose lowercase form occurs in
the lowercase title. -/
def titleHits (entry : Entry) (topics : List String) : Nat :=
  (topics.filter (fun t => strContains (pyLower entry.title) (pyLower t))).length

/-- Spec-side component: number of topic terms whose lowercase form occurs in
the lowercase abstract. -/
def abstractHits (entry : Entry) (topics : List String) : Nat :=
  (topics.filter (fun t => strContains (pyLower entry.abstract) (pyLower t))).length

/-- Spec-side component: domain-credibility credit. -/
def allowBonus (entry : Entry) (allowlist : List String) : Int :=
  if (allowlist.map pyLower).any (fun a => strContains (pyLower entry.url) a) then 3
  else 0

/-- Spec-side component: recency credit, zero when the date is empty or fails
to parse. -/
def recencyBonus (entry : Entry) (recency_days : Int) (now : PyDateTime) : Int :=
  if entry.date ≠ "" then
    match pyFromIso (removeZ entry.date) with
    | some d => if days_ago now d ≤ recency_days then 3 else 0
    | none => 0
  else 0

/-- Spec-side component: preprint-server credit. -/
def preprintBonus (entry : Entry) : Int :=
  if strContains (pyLower entry.url) "biorxiv" || strContains (pyLower entry.url) "medrxiv" then 1
  else 0

/-- The deduplication key of source line 164: the sha1 digest of the bare
concatenation `title + url` (no separator), modelled by the concatenation
itself; see the header note on hashing. -/
def fingerprint (e : Entry) : String :=
  e.title ++ e.url

/-- Forget the score assignment, for comparing a kept entry with the raw input
entry it came from. -/
def stripScore (e : Entry) : Entry :=
  { e with score := 0 }

/-- The loop of source lines 162-168 with the `seen` set explicit: skip an
entry whose fingerprint was already seen, otherwise record the fingerprint,
assign the score, and keep the entry. -/
def dedupeScoreAux (topics allowlist : List String) (recency_days : Int)
    (now : PyDateTime) : List Entry → List String → List Entry
  | [], _ => []
  | e :: es, seen =>
    if fingerprint e ∈ seen then
      dedupeScoreAux topics allowlist recency_days now es seen
    else
      { e with score := score_entry e topics allowlist recency_days now } ::
        dedupeScoreAux topics allowlist recency_days now es (fingerprint e :: seen)

/-- Source lines 162-168: dedupe-and-score starting from an empty `seen` set. -/
def dedupeScore (topics allowlist : List String) (recency_days : Int)
    (now : PyDateTime) (candidates : List Entry) : List Entry :=
  dedupeScoreAux topics allowlist recency_days now candidates []

/-- The sort key ordering of source line 170: `sort(key=score, reverse=True)`
compares entries by score, descending. -/
def scoreGe (a b : Entry) : Prop :=
  b.score ≤ a.score

instance : DecidableRel scoreGe := fun a b =>
  inferInstanceAs (Decidable (b.score ≤ a.score))

instance : IsTotal Entry scoreGe :=
  ⟨fun a b => le_total b.score a.score⟩

instance : IsTrans Entry scoreGe :=
  ⟨fun _ _ _ h1 h2 => le_trans h2 h1⟩

/-- Source line 170: `items.sort(key=lambda x: x["score"], reverse=True)`.
CPython's list sort is, by its documented contract, a stable sort, and with
`reverse=True` equal elements still keep their original order; it is modelled
by the canonical stable sort (insertion sort) under the descending-score
ordering. -/
def rankItems (items : List Entry) : List Entry :=
  List.insertionSort scoreGe items

/-- Source lines 170-171: sort descending by score, then `items[:total_limit]`. -/
def rankAndLimit (items : List Entry) (total_limit : Nat) : List Entry :=
  (rankItems items).take total_limit

/-- One `<item>` element of a syndication feed, as read by `fetch_rss`
(source lines 130-134): `findtext` with a `""` default for each child. -/
structure RssItem where
  title : String
  link : String
  pubDate : String
deriving DecidableEq, Repr

/-- The parsing loop of `fetch_rss`, source lines 130-135: each item yields an
entry with cleaned title and link but with `abstract` set to `""` and `date`
set to `""` (line 134 discards the `date` variable computed on line 133). -/
def parse_rss (items : List RssItem) : List Entry :=
  items.map fun item =>
    { title := clean item.title, abstract := "", url := clean item.link,
      source := "RSS", date := "" }

/-- requests' `Response.raise_for_status()`: raises `HTTPError` exactly for
status codes 400-599, carried here as the status code. -/
def raise_for_status (status : Nat) : Except Nat Unit :=
  if 400 ≤ status ∧ status ≤ 599 then Except.error status else Except.ok ()

/-- An HTTP response as far as `fetch_arxiv` is concerned: a status code and
the entries that `parse_arxiv` would extract from its body. -/
structure HttpResponse where
  status : Nat
  entries : List Entry
deriving DecidableEq, Repr

/-- Source lines 77-81, `fetch_arxiv`, run against the sequence of responses
the server would return to successive attempts: the code issues exactly one
GET (consuming only the first response), calls `raise_for_status`, and parses
on success. Result is `(outcome, requests issued, backoff sleeps performed)`;
there is no retry loop and no sleep anywhere in the function. -/
def fetch_arxiv_run (first : HttpResponse) (_later : List HttpResponse) :
    Except Nat (List Entry) × Nat × Nat :=
  match raise_for_status first.status with
  | Except.error code => (Except.error code, 1, 0)
  | Except.ok _ => (Except.ok first.entries, 1, 0)

/-- The fetch phase of `main`, source lines 146-159: the per-topic adapter
calls run in order and `candidates += fetch(...)` accumulates their results.
Each call's outcome is either its entry list or the exception it raises; no
`try`/`except` surrounds the loops, so the first raised exception propagates
out of `main` and the remaining calls never run. -/
def runFetches : List (Except String (List Entry)) → Except String (List Entry)
  | [] => Except.ok []
  | Except.error msg :: _ => Except.error msg
  | Except.ok l :: rest =>
    match runFetches rest with
    | Except.ok ls => Except.ok (l ++ ls)
    | Except.error msg => Except.error msg

/-- How many of the planned adapter/topic calls actually execute before the
run stops: everything up to and including the first call that raises. -/
def executedFetches : List (Except String (List Entry)) → Nat
  | [] => 0
  | Except.error _ :: _ => 1
  | Except.ok _ :: rest => 1 + executedFetches rest

/-- Process exit status of a run as a function of its fetch outcomes: an
uncaught exception aborts the interpreter with a failure status; otherwise
the script runs to the final `print` and exits successfully. -/
def digestExitCode (outcomes : List (Except String (List Entry))) : Nat :=
  match runFetches outcomes with
  | Except.ok _ => 0
  | Except.error _ => 1

/-- The files present in the digest output directory after the writing phase
of `main` (source lines 173-188): the two artifacts named after the run date
are (over)written, and nothing else is touched — the function body contains no
directory scan and no deletion. -/
def digestWriterFiles (today : String) (priorFiles : List String) : List String :=
  let outJson := today ++ ".json"
  let outMd := today ++ ".md"
  (priorFiles.filter fun f => f != outJson && f != outMd) ++ [outJson, outMd]

/-- Field-wise application of `clean` to an Entry's text fields (the adapters
apply `clean` to each text field they extract). -/
def normEntry (e : Entry) : Entry :=
  { e with title := clean e.title, abstract := clean e.abstract,
           url := clean e.url, date := clean e.date }

/-- A fixed run time for concrete evaluations: 2025-10-12 00:00:00 UTC. -/
def now0 : PyDateTime :=
  ⟨2025, 10, 12, 0, 0, 0⟩

/-- Concrete colliding pair for the fingerprint: distinct (title, url) with
equal concatenations. -/
def collA : Entry :=
  { title := "ab", abstract := "", url := "c", source := "arXiv", date := "" }

/-- Second half of the colliding pair. -/
def collB : Entry :=
  { title := "a", abstract := "", url := "bc", source := "PubMed", date := "" }

/-- A concrete feed item that does carry a publication date. -/
def rssItem0 : RssItem :=
  { title := "T", link := "http://x", pubDate := "Tue, 01 Oct 2025 00:00:00 GMT" }

/-- The entry `parse_rss` builds from `rssItem0`. -/
def rssE0 : Entry :=
  { title := "T", abstract := "", url := "http://x", source := "RSS", date := "" }

/-- A concrete rate-limited response. -/
def resp429 : HttpResponse :=
  { status := 429, entries := [] }

/-- A concrete successful response. -/
def resp200 : HttpResponse :=
  { status := 200, entries := [collA] }

/-! ## Scoring (claim C2) -/

theorem topicScore_eq (title abstr : String) (ts : List String) (s : Int) :
    topicScore title abstr ts s =
      s + 4 * ((ts.filter (fun t => strContains title (pyLower t))).length : Int)
        + 2 * ((ts.filter (fun t => strContains abstr (pyLower t))).length : Int) := by
  induction ts generalizing s with
  | nil => simp [topicScore]
  | cons t ts ih =>
    simp only [topicScore, List.filter_cons]
    by_cases h1 : strContains title (pyLower t) <;>
      by_cases h2 : strContains abstr (pyLower t) <;>
        simp only [h1, h2, if_true, if_false, ih, List.length_cons] <;> push_cast <;> ring

/-- C2: for every Entry, topic list, allowlist and recency window, the score
computed by `score_entry` equals the sum of +4 per topic term occurring in the
lowercase title, +2 per topic term occurring in the lowercase abstract, +3 for
an allowlisted domain substring in the url, +3 for a non-empty date that parses
and lies within `recency_days` of the current time, and +1 for a
preprint-server url; and a date that fails to parse contributes no recency
bonus (and, the embedding being total, raises no error). -/
theorem score_entry_decomposition (entry : Entry) (topics allowlist : List String)
    (recency_days : Int) (now : PyDateTime) :
    score_entry entry topics allowlist recency_days now =
        4 * (titleHits entry topics : Int) + 2 * (abstractHits entry topics : Int)
          + allowBonus entry allowlist + recencyBonus entry recency_days now
          + preprintBonus entry
      ∧ (pyFromIso (removeZ entry.date) = none →
          recencyBonus entry recency_days now = 0) := by
  constructor
  · simp only [score_entry, titleHits, abstractHits, allowBonus, recencyBonus, preprintBonus,
      topicScore_eq]
    rcases hp : pyFromIso (removeZ entry.date) with _ | d <;>
      simp only [hp] <;> split_ifs <;> ring
  · intro h
    simp only [recencyBonus, h]
    split_ifs <;> rfl

/-- Closed witness for the hypothesis of `score_entry_decomposition`: a
concrete entry whose date does not parse gets recency bonus 0. -/
theorem score_entry_decomposition_witness :
    recencyBonus
        { title := "T", abstract := "", url := "u", source := "RSS", date := "last Tuesday" }
        21 now0 = 0 :=
  (score_entry_decomposition
      { title := "T", abstract := "", url := "u", source := "RSS", date := "last Tuesday" }
      [] [] 21 now0).2 (by decide)

/-! ## Deduplication (claims C3, C10) -/

theorem fingerprint_set_score (e : Entry) (x : Int) :
    fingerprint { e with score := x } = fingerprint e := rfl

theorem dedupeAux_not_seen (topics allowlist : List String) (recency_days : Int)
    (now : PyDateTime) :
    ∀ (es : List Entry) (seen : List String) (e : Entry),
      e ∈ dedupeScoreAux topics allowlist recency_days now es seen →
      fingerprint e ∉ seen := by
  intro es
  induction es with
  | nil => intro seen e he; simp [dedupeScoreAux] at he
  | cons x xs ih =>
    intro seen e he
    simp only [dedupeScoreAux] at he
    by_cases hx : fingerprint x ∈ seen
    · rw [if_pos hx] at he
      exact ih seen e he
    · rw [if_neg hx] at he
      rcases List.mem_cons.mp he with rfl | he2
      · rw [fingerprint_set_score]
        exact hx
      · have h1 := ih _ e he2
        intro hcon
        exact h1 (List.mem_cons_of_mem _ hcon)

theorem dedupeAux_nodup (topics allowlist : List String) (recency_days : Int)
    (now : PyDateTime) :
    ∀ (es : List Entry) (seen : List String),
      ((dedupeScoreAux topics allowlist recency_days now es seen).map fingerprint).Nodup := by
  intro es
  induction es with
  | nil => intro seen; simp [dedupeScoreAux]
  | cons x xs ih =>
    intro seen
    simp only [dedupeScoreAux]
    by_cases hx : fingerprint x ∈ seen
    · rw [if_pos hx]; exact ih seen
    · rw [if_neg hx]
      simp only [List.map_cons, List.nodup_cons]
      refine ⟨?_, ih _⟩
      rw [fingerprint_set_score]
      intro hmem
      rcases List.mem_map.mp hmem with ⟨y, hy, hfy⟩
      have h1 := dedupeAux_not_seen topics allowlist recency_days now xs
        (fingerprint x :: seen) y hy
      rw [hfy] at h1
      exact h1 (List.mem_cons_self _ _)

theorem dedupeAux_find (topics allowlist : List String) (recency_days : Int)
    (now : PyDateTime) :
    ∀ (es : List Entry) (seen : List String) (e : Entry),
      e ∈ dedupeScoreAux topics allowlist recency_days now es seen →
      (es.find? (fun x => fingerprint x == fingerprint e)).map stripScore
        = some (stripScore e) := by
  intro es
  induction es with
  | nil => intro seen e he; simp [dedupeScoreAux] at he
  | cons x xs ih =>
    intro seen e he
    simp only [dedupeScoreAux] at he
    by_cases hx : fingerprint x ∈ seen
    · rw [if_pos hx] at he
      have hne : (fingerprint x == fingerprint e) = false := by
        simp only [beq_eq_false_iff_ne, ne_eq]
        intro hcon
        exact dedupeAux_not_seen topics allowlist recency_days now xs seen e he (hcon ▸ hx)
      simp only [List.find?, hne]
      exact ih seen e he
    · rw [if_neg hx] at he
      rcases List.mem_cons.mp he with rfl | he2
      · have hpx : (fingerprint x ==
            fingerprint { x with score := score_entry x topics allowlist recency_days now })
              = true := by
          rw [fingerprint_set_score]
          exact beq_self_eq_true _
        simp only [List.find?, hpx, Option.map_some]
        rfl
      · have h1 := dedupeAux_not_seen topics allowlist recency_days now xs
          (fingerprint x :: seen) e he2
        have hne : (fingerprint x == fingerprint e) = false := by
          simp only [beq_eq_false_iff_ne, ne_eq]
          intro hcon
          exact h1 (hcon ▸ List.mem_cons_self _ _)
        simp only [List.find?, hne]
        exact ih _ e he2

theorem dedupeAux_sublist (topics allowlist : List String) (recency_days : Int)
    (now : PyDateTime) :
    ∀ (es : List Entry) (seen : List String),
      ((dedupeScoreAux topics allowlist recency_days now es seen).map stripScore).Sublist
        (es.map stripScore) := by
  intro es
  induction es with
  | nil => intro seen; simp [dedupeScoreAux]
  | cons x xs ih =>
    intro seen
    simp only [dedupeScoreAux]
    by_cases hx : fingerprint x ∈ seen
    · rw [if_pos hx]
      simp only [List.map_cons]
      exact List.Sublist.cons _ (ih seen)
    · rw [if_neg hx]
      simp only [List.map_cons]
      have hss : stripScore { x with score := score_entry x topics allowlist recency_days now }
          = stripScore x := rfl
      rw [hss]
      exact List.Sublist.cons₂ _ (ih _)

/-- C3: for every input sequence, the dedupe-and-score loop produces no two
entries with equal (title, url); every kept entry is the first occurrence of
its fingerprint in input order (up to the score assignment, which the loop
performs on the kept entry); and the output lists kept entries in input
order (a sublist of the input, again up to the score field). -/
theorem dedupe_first_occurrence (topics allowlist : List String) (recency_days : Int)
    (now : PyDateTime) (candidates : List Entry) :
    (dedupeScore topics allowlist recency_days now candidates).Pairwise
        (fun a b => ¬(a.title = b.title ∧ a.url = b.url))
      ∧ (∀ e ∈ dedupeScore topics allowlist recency_days now candidates,
          (candidates.find? (fun x => fingerprint x == fingerprint e)).map stripScore
            = some (stripScore e))
      ∧ ((dedupeScore topics allowlist recency_days now candidates).map stripScore).Sublist
          (candidates.map stripScore) := by
  refine ⟨?_, fun e he => dedupeAux_find topics allowlist recency_days now candidates [] e he,
    dedupeAux_sublist topics allowlist recency_days now candidates []⟩
  have hnd := dedupeAux_nodup topics allowlist recency_days now candidates []
  have hpw : (dedupeScore topics allowlist recency_days now candidates).Pairwise
      (fun a b => fingerprint a ≠ fingerprint b) := List.pairwise_map.mp hnd
  refine hpw.imp ?_
  intro a b hab hcon
  exact hab (by simp only [fingerprint, hcon.1, hcon.2])

/-- Closed witness for `dedupe_first_occurrence`: on a concrete duplicated
input the kept entry is the first occurrence. -/
theorem dedupe_first_occurrence_witness :
    ([collA, collA].find? (fun x => fingerprint x == fingerprint collA)).map stripScore
      = some (stripScore collA) :=
  (dedupe_first_occurrence [] [] 0 now0 [collA, collA]).2.1 collA (by decide)

/-- C10: the fingerprint concatenates title and url with no separator, so the
distinct identities ("ab", "c") and ("a", "bc") collide and the later entry is
dropped by the dedupe loop. -/
theorem dedupe_concat_collision :
    (collA.title ≠ collB.title ∧ collA.url ≠ collB.url)
      ∧ fingerprint collA = fingerprint collB
      ∧ dedupeScore [] [] 0 now0 [collA, collB] = [collA] := by
  decide

/-! ## Ranker/Limiter (claims C6, C7) -/

theorem filter_orderedInsert (s : Int) (a : Entry) (m : List Entry) :
    (List.orderedInsert scoreGe a m).filter (fun e => decide (e.score = s)) =
      if a.score = s then a :: m.filter (fun e => decide (e.score = s))
      else m.filter (fun e => decide (e.score = s)) := by
  induction m with
  | nil =>
    by_cases ha : a.score = s <;> simp [List.orderedInsert, ha]
  | cons b bs ih =>
    by_cases hab : scoreGe a b
    · by_cases ha : a.score = s <;>
        simp [List.orderedInsert, hab, List.filter_cons, ha]
    · have hlt : a.score < b.score := by
        simpa [scoreGe, not_le] using hab
      by_cases ha : a.score = s
      · have hb : ¬(b.score = s) := by omega
        simp [List.orderedInsert, hab, List.filter_cons, ha, hb, ih]
      · simp only [List.orderedInsert, if_neg hab, List.filter_cons, ih, if_neg ha]

theorem rankItems_filter (s : Int) (items : List Entry) :
    (rankItems items).filter (fun e => decide (e.score = s))
      = items.filter (fun e => decide (e.score = s)) := by
  induction items with
  | nil => rfl
  | cons a l ih =>
    simp only [rankItems, List.insertionSort] at *
    rw [filter_orderedInsert]
    by_cases ha : a.score = s <;> simp [List.filter_cons, ha, ih]

/-- C6: the ranking sort of line 170 is a stable descending sort: the output
is pairwise non-increasing in score, is a permutation of its input, and for
every score value the equal-score entries appear in the output in exactly
their input order. -/
theorem rank_sorted_stable (items : List Entry) :
    (rankItems items).Pairwise scoreGe
      ∧ (rankItems items).Perm items
      ∧ ∀ s : Int, (rankItems items).filter (fun e => decide (e.score = s))
          = items.filter (fun e => decide (e.score = s)) :=
  ⟨List.sorted_insertionSort scoreGe items, List.perm_insertionSort scoreGe items,
    fun s => rankItems_filter s items⟩

/-- C7: truncation to `total_limit`: the output never exceeds the limit, hits
it exactly when enough items are available, stays sorted non-increasing by
score, and a limit of 0 yields the empty digest. -/
theorem limit_bounds (items : List Entry) (k : Nat) :
    (rankAndLimit items k).length ≤ k
      ∧ (k ≤ items.length → (rankAndLimit items k).length = k)
      ∧ (rankAndLimit items k).Pairwise scoreGe
      ∧ rankAndLimit items 0 = [] := by
  refine ⟨?_, ?_, ?_, rfl⟩
  · simp [rankAndLimit, List.length_take]
  · intro hk
    have hlen : (rankItems items).length = items.length :=
      (List.perm_insertionSort scoreGe items).length_eq
    simp only [rankAndLimit, List.length_take, hlen]
    omega
  · exact List.Pairwise.sublist (List.take_sublist _ _)
      (List.sorted_insertionSort scoreGe items)

/-- Closed witness for the hypothesis of `limit_bounds`: with two items and a
limit of 1 the output has exactly one item. -/
theorem limit_bounds_witness : (rankAndLimit [collA, collB] 1).length = 1 :=
  (limit_bounds [collA, collB] 1).2.1 (by decide)

/-! ## Normalization (claim C8) -/

theorem dropWhile_idem (l : List Char) :
    (l.dropWhile pyIsSpace).dropWhile pyIsSpace = l.dropWhile pyIsSpace := by
  induction l with
  | nil => rfl
  | cons c cs ih =>
    by_cases h : pyIsSpace c
    · simp [List.dropWhile_cons, h, ih]
    · simp [List.dropWhile_cons, h]

theorem head_nonspace_of_dropWhile_self (c : Char) (cs : List Char)
    (h : (c :: cs).dropWhile pyIsSpace = c :: cs) : pyIsSpace c = false := by
  by_cases hpc : pyIsSpace c
  · exfalso
    rw [List.dropWhile_cons, if_pos hpc] at h
    have h1 := congrArg List.length h
    have h2 := (List.dropWhile_sublist (l := cs) pyIsSpace).length_le
    simp only [List.length_cons] at h1
    omega
  · simp only [Bool.not_eq_true] at hpc
    exact hpc

theorem dropWhile_eq_self_of_head (l : List Char)
    (h : ∀ c, l.head? = some c → pyIsSpace c = false) :
    l.dropWhile pyIsSpace = l := by
  cases l with
  | nil => rfl
  | cons c cs =>
    have hc := h c rfl
    simp [List.dropWhile_cons, hc]

theorem stripRight_of_dropWhile_self (a : List Char)
    (ha : a.dropWhile pyIsSpace = a) :
    ((a.reverse.dropWhile pyIsSpace).reverse).dropWhile pyIsSpace
      = (a.reverse.dropWhile pyIsSpace).reverse := by
  cases a with
  | nil => simp
  | cons c cs =>
    have hc : pyIsSpace c = false := head_nonspace_of_dropWhile_self c cs ha
    rw [List.reverse_cons, List.dropWhile_append]
    by_cases he : ((cs.reverse).dropWhile pyIsSpace).isEmpty
    · rw [if_pos he]
      simp [List.dropWhile_cons, hc]
    · rw [if_neg he]
      rw [List.reverse_append]
      simp [List.dropWhile_cons, hc]

theorem strip_noLead (l : List Char) :
    (pyStrip l).dropWhile pyIsSpace = pyStrip l := by
  simp only [pyStrip]
  exact stripRight_of_dropWhile_self (l.dropWhile pyIsSpace) (dropWhile_idem l)

theorem strip_noTrail (l : List Char) :
    (pyStrip l).reverse.dropWhile pyIsSpace = (pyStrip l).reverse := by
  simp only [pyStrip, List.reverse_reverse]
  exact dropWhile_idem _

theorem noTrail_of_rev (x : List Char)
    (h : x.reverse.dropWhile pyIsSpace = x.reverse) :
    ∀ c, x.getLast? = some c → pyIsSpace c = false := by
  intro c hc
  rw [← List.head?_reverse] at hc
  cases hx : x.reverse with
  | nil => rw [hx] at hc; simp at hc
  | cons d ds =>
    rw [hx] at hc h
    simp only [List.head?_cons, Option.some.injEq] at hc
    subst hc
    exact head_nonspace_of_dropWhile_self _ _ h

theorem rev_of_noTrail (x : List Char)
    (h : ∀ c, x.getLast? = some c → pyIsSpace c = false) :
    x.reverse.dropWhile pyIsSpace = x.reverse := by
  apply dropWhile_eq_self_of_head
  intro c hc
  rw [List.head?_reverse] at hc
  exact h c hc

theorem getLast?_cons_ne (d : Char) (ds : List Char) (h : ds ≠ []) :
    (d :: ds).getLast? = ds.getLast? := by
  cases ds with
  | nil => exact absurd rfl h
  | cons e es => exact List.getLast?_cons_cons

theorem collapseAux_ne_nil : ∀ (cs : List Char) (b : Bool),
    (∀ c, cs.getLast? = some c → pyIsSpace c = false) → cs ≠ [] →
    collapseAux b cs ≠ [] := by
  intro cs
  induction cs with
  | nil => intro b _ hne; exact absurd rfl hne
  | cons d ds ih =>
    intro b h _
    by_cases hd : pyIsSpace d
    · have hds : ds ≠ [] := by
        intro hcon
        subst hcon
        have hlast := h d rfl
        rw [hd] at hlast
        exact Bool.true_eq_false.mp hlast
      have h2 : ∀ c, ds.getLast? = some c → pyIsSpace c = false := by
        intro c hc
        exact h c (by rw [getLast?_cons_ne d ds hds]; exact hc)
      cases b with
      | true =>
        simp only [collapseAux, hd, if_true]
        exact ih true h2 hds
      | false =>
        simp [collapseAux, hd]
    · cases b <;> simp [collapseAux, hd]

theorem collapseAux_noTrail : ∀ (cs : List Char) (b : Bool),
    (∀ c, cs.getLast? = some c → pyIsSpace c = false) →
    ∀ c, (collapseAux b cs).getLast? = some c → pyIsSpace c = false := by
  intro cs
  induction cs with
  | nil => intro b _ c hc; simp [collapseAux] at hc
  | cons d ds ih =>
    intro b h c hc
    by_cases hd : pyIsSpace d
    · have hds : ds ≠ [] := by
        intro hcon
        subst hcon
        have hlast := h d rfl
        rw [hd] at hlast
        exact Bool.true_eq_false.mp hlast
      have h2 : ∀ c, ds.getLast? = some c → pyIsSpace c = false := by
        intro c hc2
        exact h c (by rw [getLast?_cons_ne d ds hds]; exact hc2)
      cases b with
      | true =>
        simp only [collapseAux, hd, if_true] at hc
        exact ih true h2 c hc
      | false =>
        simp only [collapseAux, hd, if_true, Bool.false_eq_true, if_false] at hc
        have hX : collapseAux true ds ≠ [] := collapseAux_ne_nil ds true h2 hds
        rw [getLast?_cons_ne ' ' _ hX] at hc
        exact ih true h2 c hc
    · by_cases hds : ds = []
      · subst hds
        have hd0 : pyIsSpace d = false := by
          simp only [Bool.not_eq_true] at hd
          exact hd
        cases b <;>
          · simp only [collapseAux, hd0, Bool.false_eq_true, if_false] at hc
            simp only [collapseAux, List.getLast?_singleton, Option.some.injEq] at hc
            rw [← hc]
            exact hd0
      · have h2 : ∀ c, ds.getLast? = some c → pyIsSpace c = false := by
          intro c hc2
          exact h c (by rw [getLast?_cons_ne d ds hds]; exact hc2)
        have hX : collapseAux false ds ≠ [] := collapseAux_ne_nil ds false h2 hds
        have hd0 : pyIsSpace d = false := by
          simp only [Bool.not_eq_true] at hd
          exact hd
        cases b <;>
          · simp only [collapseAux, hd0, Bool.false_eq_true, if_false] at hc
            rw [getLast?_cons_ne d _ hX] at hc
            exact ih false h2 c hc

theorem collapse_noLead (m : List Char) (h : m.dropWhile pyIsSpace = m) :
    (collapseAux false m).dropWhile pyIsSpace = collapseAux false m := by
  cases m with
  | nil => rfl
  | cons c cs =>
    have hc := head_nonspace_of_dropWhile_self c cs h
    simp [collapseAux, hc, List.dropWhile_cons]

theorem collapseAux_idem : ∀ (cs : List Char) (b : Bool),
    collapseAux b (collapseAux b cs) = collapseAux b cs := by
  intro cs
  induction cs with
  | nil => intro b; rfl
  | cons d ds ih =>
    intro b
    by_cases hd : pyIsSpace d
    · cases b with
      | true =>
        have e1 : collapseAux true (d :: ds) = collapseAux true ds := by
          simp [collapseAux, hd]
        rw [e1]
        exact ih true
      | false =>
        have e1 : collapseAux false (d :: ds) = ' ' :: collapseAux true ds := by
          simp [collapseAux, hd]
        have hsp : pyIsSpace ' ' = true := rfl
        have e2 : collapseAux false (' ' :: collapseAux true ds)
            = ' ' :: collapseAux true (collapseAux true ds) := by
          simp [collapseAux, hsp]
        rw [e1, e2, ih true]
    · have hd0 : pyIsSpace d = false := by
        simp only [Bool.not_eq_true] at hd
        exact hd
      have e1 : collapseAux b (d :: ds) = d :: collapseAux false ds := by
        cases b <;> simp [collapseAux, hd0]
      have e2 : collapseAux b (d :: collapseAux false ds)
          = d :: collapseAux false (collapseAux false ds) := by
        cases b <;> simp [collapseAux, hd0]
      rw [e1, e2, ih false]

theorem collapseWs_noLead (m : List Char) (h : m.dropWhile pyIsSpace = m) :
    (collapseWs m).dropWhile pyIsSpace = collapseWs m :=
  collapse_noLead m h

theorem collapseWs_noTrail (m : List Char)
    (h : ∀ c, m.getLast? = some c → pyIsSpace c = false) :
    ∀ c, (collapseWs m).getLast? = some c → pyIsSpace c = false :=
  collapseAux_noTrail m false h

theorem collapseWs_idem (m : List Char) : collapseWs (collapseWs m) = collapseWs m :=
  collapseAux_idem m false

theorem pyStrip_eq_self (x : List Char) (h1 : x.dropWhile pyIsSpace = x)
    (h2 : x.reverse.dropWhile pyIsSpace = x.reverse) : pyStrip x = x := by
  show ((x.dropWhile pyIsSpace).reverse.dropWhile pyIsSpace).reverse = x
  rw [h1, h2, List.reverse_reverse]

theorem clean_clean (s : String) : clean (clean s) = clean s := by
  have hstrip : pyStrip (collapseWs (pyStrip s.data)) = collapseWs (pyStrip s.data) :=
    pyStrip_eq_self _ (collapseWs_noLead _ (strip_noLead s.data))
      (rev_of_noTrail _ (collapseWs_noTrail _ (noTrail_of_rev _ (strip_noTrail s.data))))
  show (⟨collapseWs (pyStrip (collapseWs (pyStrip s.data)))⟩ : String)
    = ⟨collapseWs (pyStrip s.data)⟩
  rw [hstrip, collapseWs_idem]

/-- C8: `clean` is idempotent — re-normalizing an already-normalized text
field is a no-op, and therefore re-normalizing an Entry whose text fields are
already normalized yields the identical Entry. -/
theorem clean_idempotent :
    (∀ text : String, clean (clean text) = clean text)
      ∧ ∀ e : Entry, normEntry (normEntry e) = normEntry e := by
  refine ⟨clean_clean, fun e => ?_⟩
  simp [normEntry, clean_clean]

/-! ## Feed adapter (claim C9) -/

theorem strContains_empty_of_ne (t : String) (ht : t ≠ "") :
    strContains "" (pyLower t) = false := by
  obtain ⟨data⟩ := t
  cases data with
  | nil => exact absurd rfl ht
  | cons c cs => rfl

theorem pyLower_empty : pyLower "" = "" := rfl

theorem abstractHits_empty_abstract (e : Entry) (he : e.abstract = "")
    (topics : List String) (ht : ∀ t ∈ topics, t ≠ "") : abstractHits e topics = 0 := by
  simp only [abstractHits, he, pyLower_empty, List.length_eq_zero, List.filter_eq_nil_iff]
  intro t hmem
  simp [strContains_empty_of_ne t (ht t hmem)]

theorem recencyBonus_empty_date (e : Entry) (he : e.date = "")
    (recency_days : Int) (now : PyDateTime) : recencyBonus e recency_days now = 0 := by
  simp [recencyBonus, he]

/-- C9 counterexample: the feed adapter does set `abstract` and `date` to the
empty string, but with the empty string as a topic term the entry still
receives the +2 abstract bonus (Python's `"" in ""` is true): its score is
6 = 4 (title hit) + 2 (abstract hit), not 4. So "can never receive any +2
abstract topic bonus" fails as stated. -/
theorem rss_empty_topic_bonus_cex :
    parse_rss [rssItem0] = [rssE0]
      ∧ rssItem0.pubDate ≠ ""
      ∧ abstractHits rssE0 [""] = 1
      ∧ score_entry rssE0 [""] [] 21 now0 = 6 := by
  decide

/-- C9 (amended): every Entry the feed adapter produces has empty abstract and
empty date (even when the item carries a publication date, which line 134
discards); consequently it can never receive the +3 recency bonus, and it
receives no +2 abstract bonus for any non-empty topic term (only the degenerate
empty topic term can match its empty abstract). -/
theorem rss_entries_empty_abstract_date (items : List RssItem) :
    ∀ e ∈ parse_rss items,
      e.abstract = "" ∧ e.date = ""
        ∧ (∀ (recency_days : Int) (now : PyDateTime),
            recencyBonus e recency_days now = 0)
        ∧ ∀ topics : List String, (∀ t ∈ topics, t ≠ "") → abstractHits e topics = 0 := by
  intro e he
  rcases List.mem_map.mp he with ⟨item, _hitem, rfl⟩
  exact ⟨rfl, rfl, fun r n => recencyBonus_empty_date _ rfl r n,
    fun topics ht => abstractHits_empty_abstract _ rfl topics ht⟩

/-- Closed witness for `rss_entries_empty_abstract_date` at a concrete item
and a concrete non-empty topic list. -/
theorem rss_entries_empty_abstract_date_witness :
    rssE0.abstract = "" ∧ abstractHits rssE0 ["mortgage"] = 0 := by
  have h := rss_entries_empty_abstract_date [rssItem0] rssE0 (by decide)
  exact ⟨h.1, h.2.2.2 ["mortgage"] (by decide)⟩

/-! ## Failure isolation (claim C1) -/

theorem runFetches_error_of_mem :
    ∀ (outcomes : List (Except String (List Entry))) (msg : String),
      Except.error msg ∈ outcomes →
      ∃ m, runFetches outcomes = Except.error m := by
  intro outcomes
  induction outcomes with
  | nil => intro msg h; simp at h
  | cons x rest ih =>
    intro msg h
    cases x with
    | error m => exact ⟨m, rfl⟩
    | ok l =>
      have hrest : Except.error msg ∈ rest := by
        rcases List.mem_cons.mp h with hx | hx
        · exact absurd hx (by simp)
        · exact hx
      rcases ih msg hrest with ⟨m, hm⟩
      exact ⟨m, by simp [runFetches, hm]⟩

theorem runFetches_ok_of_all_ok :
    ∀ (outcomes : List (Except String (List Entry))),
      (∀ x ∈ outcomes, ∃ l, x = Except.ok l) →
      ∃ ls, runFetches outcomes = Except.ok ls := by
  intro outcomes
  induction outcomes with
  | nil => intro _; exact ⟨[], rfl⟩
  | cons x rest ih =>
    intro h
    rcases h x (List.mem_cons_self _ _) with ⟨l, rfl⟩
    rcases ih (fun y hy => h y (List.mem_cons_of_mem _ hy)) with ⟨ls, hls⟩
    exact ⟨l ++ ls, by simp [runFetches, hls]⟩

theorem executedFetches_append_ok :
    ∀ (pre : List (Except String (List Entry))),
      (∀ x ∈ pre, ∃ l, x = Except.ok l) →
      ∀ rest, executedFetches (pre ++ rest) = pre.length + executedFetches rest := by
  intro pre
  induction pre with
  | nil => intro _ rest; simp
  | cons x pres ih =>
    intro h rest
    rcases h x (List.mem_cons_self _ _) with ⟨l, rfl⟩
    have h2 := ih (fun y hy => h y (List.mem_cons_of_mem _ hy)) rest
    have e1 : executedFetches ((Except.ok l :: pres) ++ rest)
        = 1 + executedFetches (pres ++ rest) := rfl
    rw [e1, h2, List.length_cons]
    omega

/-- C1 counterexample: with a first adapter/topic call that raises and a
second that would succeed, the run aborts with the exception after executing
only the first call, and the process exits with a failure status — the error
is not caught, the remaining call never runs, and the run does not continue
to a digest. -/
theorem fetch_error_aborts_cex :
    runFetches [Except.error "HTTPError", Except.ok [collA]] = Except.error "HTTPError"
      ∧ executedFetches [Except.error "HTTPError", Except.ok [collA]] = 1
      ∧ digestExitCode [Except.error "HTTPError", Except.ok [collA]] = 1 :=
  ⟨rfl, rfl, rfl⟩

/-- C1 (amended): an adapter call that raises for one topic aborts the whole
run: the exception propagates out of `main`, the calls after the first failing
one never execute, and the process exits with a failure status; only a run in
which every adapter/topic call succeeds accumulates all entries and exits
successfully. -/
theorem fetch_error_propagates (outcomes : List (Except String (List Entry))) :
    ((∃ msg, Except.error msg ∈ outcomes) →
        (∃ m, runFetches outcomes = Except.error m) ∧ digestExitCode outcomes = 1)
      ∧ ((∀ x ∈ outcomes, ∃ l, x = Except.ok l) →
        (∃ ls, runFetches outcomes = Except.ok ls) ∧ digestExitCode outcomes = 0)
      ∧ ∀ (pre post : List (Except String (List Entry))) (msg : String),
          outcomes = pre ++ Except.error msg :: post →
          (∀ x ∈ pre, ∃ l, x = Except.ok l) →
          executedFetches outcomes = pre.length + 1 := by
  refine ⟨?_, ?_, ?_⟩
  · rintro ⟨msg, hmem⟩
    rcases runFetches_error_of_mem outcomes msg hmem with ⟨m, hm⟩
    exact ⟨⟨m, hm⟩, by simp [digestExitCode, hm]⟩
  · intro h
    rcases runFetches_ok_of_all_ok outcomes h with ⟨ls, hls⟩
    exact ⟨⟨ls, hls⟩, by simp [digestExitCode, hls]⟩
  · intro pre post msg heq hok
    subst heq
    rw [executedFetches_append_ok pre hok (Except.error msg :: post)]
    rfl

/-- Closed witness for `fetch_error_propagates`: one successful call followed
by a failing one executes exactly two of the three planned calls. -/
theorem fetch_error_propagates_witness :
    executedFetches [Except.ok [collA], Except.error "HTTPError", Except.ok [collB]] = 2 :=
  (fetch_error_propagates _).2.2 [Except.ok [collA]] [Except.ok [collB]] "HTTPError" rfl
    (by
      intro x hx
      rw [List.mem_singleton] at hx
      exact ⟨[collA], hx⟩)

/-! ## Fetch client (claim C4) -/

/-- C4 counterexample: on a too-many-requests response the fetch surfaces the
failure immediately on the first attempt — one request, zero backoff sleeps —
even though a retry would have hit a successful response. -/
theorem fetch_arxiv_no_retry_cex :
    fetch_arxiv_run resp429 [resp200] = (Except.error 429, 1, 0) := rfl

/-- C4 (amended): `fetch_arxiv` issues exactly one HTTP request and performs
no backoff sleep; its outcome depends only on the first response (any retry
responses are never consulted): an error status (including 429) raises
immediately, and a success status returns the parsed entries. -/
theorem fetch_arxiv_single_attempt (first : HttpResponse) (later : List HttpResponse) :
    (fetch_arxiv_run first later).2.1 = 1
      ∧ (fetch_arxiv_run first later).2.2 = 0
      ∧ fetch_arxiv_run first later = fetch_arxiv_run first []
      ∧ (400 ≤ first.status ∧ first.status ≤ 599 →
          (fetch_arxiv_run first later).1 = Except.error first.status)
      ∧ (¬(400 ≤ first.status ∧ first.status ≤ 599) →
          (fetch_arxiv_run first later).1 = Except.ok first.entries) := by
  by_cases h : 400 ≤ first.status ∧ first.status ≤ 599 <;>
    simp [fetch_arxiv_run, raise_for_status, h]

/-- Closed witness for `fetch_arxiv_single_attempt` at concrete responses. -/
theorem fetch_arxiv_single_attempt_witness :
    (fetch_arxiv_run resp429 [resp200]).1 = Except.error 429
      ∧ (fetch_arxiv_run resp200 []).1 = Except.ok [collA] :=
  ⟨(fetch_arxiv_single_attempt resp429 [resp200]).2.2.2.1 (by decide),
    (fetch_arxiv_single_attempt resp200 []).2.2.2.2 (by decide)⟩

/-! ## Digest writer retention (claim C5) -/

/-- C5 counterexample: an artifact dated 40 days before the run date survives
the writing phase — the writer deletes nothing, contradicting the claimed
30-day retention scan. -/
theorem retention_not_pruned_cex :
    daysFromCivil 2025 10 12 - daysFromCivil 2025 9 2 = 40
      ∧ "2025-09-02.json" ∈ digestWriterFiles "2025-10-12" ["2025-09-02.json"] := by
  constructor
  · decide
  · decide

/-- C5 (amended): the writing phase of `main` only adds (or overwrites) the
two artifacts of the run date: every prior artifact, of any age, is retained,
and the directory afterwards contains exactly the prior files plus the two
new artifacts. -/
theorem digest_writer_retains_all (today : String) (priorFiles : List String) :
    (∀ f ∈ priorFiles, f ∈ digestWriterFiles today priorFiles)
      ∧ (today ++ ".json") ∈ digestWriterFiles today priorFiles
      ∧ (today ++ ".md") ∈ digestWriterFiles today priorFiles
      ∧ ∀ f ∈ digestWriterFiles today priorFiles,
          f ∈ priorFiles ∨ f = today ++ ".json" ∨ f = today ++ ".md" := by
  refine ⟨?_, by simp [digestWriterFiles], by simp [digestWriterFiles], ?_⟩
  · intro f hf
    by_cases hj : f = today ++ ".json"
    · simp [digestWriterFiles, hj]
    · by_cases hm : f = today ++ ".md"
      · simp [digestWriterFiles, hm]
      · simp only [digestWriterFiles, List.mem_append]
        left
        exact List.mem_filter.mpr ⟨hf, by simp [hj, hm]⟩
  · intro f hf
    simp only [digestWriterFiles, List.mem_append, List.mem_filter] at hf
    rcases hf with ⟨hmem, _⟩ | h2
    · exact Or.inl hmem
    · right
      simpa using h2

/-- Closed witness for `digest_writer_retains_all`: a concrete old artifact is
still present after the run. -/
theorem digest_writer_retains_all_witness :
    "2024-01-01.json" ∈ digestWriterFiles "2025-10-12" ["2024-01-01.json"] :=
  (digest_writer_retains_all "2025-10-12" ["2024-01-01.json"]).1 "2024-01-01.json"
    (by decide)

end DailyDigest
